import Mathlib

/-!
# govendor `context/status.go`: status taxonomy, line rendering, sorted status list

Shallow embedding of `src/context/status.go`.

* Go `string` is embedded as Lean `String`; `<` on Go strings is byte-wise
  lexicographic, which on UTF-8 text is the lexicographic order on the code points
  (`strLess`, the order `<` of Lean strings).
* `ListStatus` is a Go `byte`, embedded as `Fin 256`.
* `listItemSort` is a slice of `ListItem`, embedded as a list; indices handed to
  `Less` and `Swap` are in range by type (an out-of-range index is a run-time
  panic in Go).
* `ctx.Package` is a Go map; the `range` loop of `ListStatus` ignores the keys, so
  the context carries the packages as the sequence in which that loop enumerates
  them. Two enumeration orders of one map are two lists that are permutations of
  each other.
* `ctx.loadPackage` lives in another file of the package and `sort.Sort` in the Go
  standard library; both are parameters of `Context.ListStatus`. The theorems hold for
  every routine that meets `SortContract`; the library routine itself is `goSort`.
-/

namespace Govendor

/-- Go strings. -/
abbrev GoString := String

/-- The Go declaration `type ListStatus byte`. -/
abbrev ListStatus := Fin 256

/-- StatusUnknown indicates the status was unable to be obtained. -/
def StatusUnknown : ListStatus := 0
/-- StatusMissing indicates import not found in GOROOT or GOPATH. -/
def StatusMissing : ListStatus := 1
/-- StatusStd indicates import found in GOROOT. -/
def StatusStd : ListStatus := 2
/-- StatusLocal indicates import is part of the local project. -/
def StatusLocal : ListStatus := 3
/-- StatusExternal indicates import is found in GOPATH and not copied. -/
def StatusExternal : ListStatus := 4
/-- StatusInternal indicates import has been copied locally under internal. -/
def StatusInternal : ListStatus := 5
/-- StatusUnused indicates import has been copied, but is no longer used. -/
def StatusUnused : ListStatus := 6
/-- StatusProgram indicates the import is a main package but internal or vendor. -/
def StatusProgram : ListStatus := 7
/-- StatusVendor indicates the import is in the vendor folder. -/
def StatusVendor : ListStatus := 8

/-- The nine constants of the `const` block, in declaration order. -/
def declaredStatuses : List ListStatus :=
  [StatusUnknown, StatusMissing, StatusStd, StatusLocal, StatusExternal,
   StatusInternal, StatusUnused, StatusProgram, StatusVendor]

/-- The method `func (ls ListStatus) String() string`: a `switch` over the nine
constants, falling through to `return ""`. -/
def ListStatus.String (ls : ListStatus) : GoString :=
  if ls = StatusUnknown then "?"
  else if ls = StatusMissing then "m"
  else if ls = StatusStd then "s"
  else if ls = StatusLocal then "l"
  else if ls = StatusExternal then "e"
  else if ls = StatusInternal then "i"
  else if ls = StatusUnused then "u"
  else if ls = StatusProgram then "p"
  else if ls = StatusVendor then "v"
  else ""

/-- ListItem represents a package in the current project. -/
structure ListItem where
  Status : ListStatus
  Path : GoString
  VendorPath : GoString
deriving DecidableEq, Repr

/-- The method `func (li ListItem) String() string`. The verb `%s` applied to
`li.Status` prints `li.Status.String()`. -/
def ListItem.String (li : ListItem) : GoString :=
  if li.VendorPath.length = 0 ∨ li.VendorPath = li.Path then
    ListStatus.String li.Status ++ " " ++ li.Path
  else
    ListStatus.String li.Status ++ " " ++ li.Path ++ " [" ++ li.VendorPath ++ "]"

/-- The Go declaration `type listItemSort []ListItem`. -/
abbrev listItemSort := List ListItem

/-- The method `Len`. -/
def listItemSort.Len (li : listItemSort) : Nat := li.length

/-- The method `Swap`: `li[i], li[j] = li[j], li[i]`. -/
def listItemSort.Swap (li : listItemSort) (i j : Fin li.length) : listItemSort :=
  (li.set i.val (li.get j)).set j.val (li.get i)

/-- Go's `a < b` on strings: lexicographic comparison, position by position. -/
def strLess (a b : GoString) : Bool := decide (a.toList < b.toList)

/-- The method `Less`. -/
def listItemSort.Less (li : listItemSort) (i j : Fin li.length) : Bool :=
  if (li.get i).Status = (li.get j).Status then
    strLess (li.get i).Path (li.get j).Path
  else
    decide ((li.get i).Status > (li.get j).Status)

/-- What `sort.IsSorted` reports: no element is `Less` than its predecessor. -/
def IsSorted (li : listItemSort) : Prop :=
  ∀ i : Fin li.length, ∀ h : 0 < i.val, li.Less i ⟨i.val - 1, by omega⟩ = false

instance (li : listItemSort) : Decidable (IsSorted li) := by
  unfold IsSorted; infer_instance

/-- The slices that a routine can turn `li` into when the only way it writes to the
slice is the method `Swap`. -/
inductive SwapReach : listItemSort → listItemSort → Prop
  | done (li : listItemSort) : SwapReach li li
  | step (li out : listItemSort) (i j : Fin li.length) :
      SwapReach (li.Swap i j) out → SwapReach li out

/-- The standard library routine `sort.Sort`, as far as `ListStatus` relies on it.
`sort.Sort` receives the slice as a `sort.Interface` value, so it can touch it only
through `Len`, `Less` and `Swap`:
* `swaps`: the slice it leaves is reached from the given one by calls of `Swap`;
* `sorted`: the slice it leaves is in ascending order as determined by `Less`;
* `oblivious`: it learns about the records only from the answers of `Less`, which
  reads `Status` and `Path`; rewriting the records without touching those two fields
  makes it perform the same swaps.
Its documentation adds that the sort is not guaranteed to be stable. -/
structure SortContract (sort : listItemSort → listItemSort) : Prop where
  swaps : ∀ li, SwapReach li (sort li)
  sorted : ∀ li, IsSorted (sort li)
  oblivious : ∀ f : ListItem → ListItem,
    (∀ x, (f x).Status = x.Status ∧ (f x).Path = x.Path) →
    ∀ li, sort (li.map f) = (sort li).map f

/-- The fields of `Package` that `ListStatus` reads. -/
structure Package where
  Status : ListStatus
  CanonicalPath : GoString
  LocalPath : GoString
deriving DecidableEq, Repr

/-- The fields of `Context` that `ListStatus` reads: the flag `loaded` and the
packages of the map `Package`, in the order in which `range` enumerates them. -/
structure Context where
  loaded : Bool
  Package : List Package
deriving DecidableEq, Repr

/-- A non-nil Go `error` value. The nil error is `none : Option GoError`. -/
structure GoError where
  msg : GoString
deriving DecidableEq, Repr

/-- The method `ctx.loadPackage`, defined elsewhere in the package: it may rewrite the
receiver and returns an error or nil. -/
abbrev Loader := Context → Context × Option GoError

/-- What one call of `ListStatus` leaves behind: the receiver after the call, the two
returned values, and the number of times the call invoked `loadPackage`. -/
structure Outcome where
  ctx : Context
  list : List ListItem
  err : Option GoError
  loads : Nat
deriving DecidableEq, Repr

/-- The body of the `range` loop: one `ListItem` built from one package. -/
def itemOf (pkg : Package) : ListItem :=
  { Status := pkg.Status, Path := pkg.CanonicalPath, VendorPath := pkg.LocalPath }

/-- The loop over `range ctx.Package`, whose body is `list = append(list, li)`, started
from the empty slice `make([]ListItem, 0, len(ctx.Package))`. -/
def collect (pkgs : List Package) : listItemSort :=
  pkgs.foldl (fun list pkg => list ++ [itemOf pkg]) []

/-- ListStatus obtains the current package status list. -/
def Context.ListStatus (sort : listItemSort → listItemSort) (loadPackage : Loader)
    (ctx : Context) : Outcome :=
  if ctx.loaded = false then
    match loadPackage ctx with
    | (ctx1, some err) => { ctx := ctx1, list := [], err := some err, loads := 1 }
    | (ctx1, none) =>
      { ctx := ctx1, list := sort (collect ctx1.Package), err := none, loads := 1 }
  else
    { ctx := ctx, list := sort (collect ctx.Package), err := none, loads := 0 }

/-- Modelled from the spec: `loadPackage` is not in this file. The spec gives the
loader the duty of the flag: a call that succeeds leaves `loaded` true ("the first
call triggers the loader and flips it to true"); what a failing call does to the
flag is left to the loader. -/
def LoaderSetsFlag (loadPackage : Loader) : Prop :=
  ∀ ctx, (loadPackage ctx).2 = none → (loadPackage ctx).1.loaded = true

/-- The sort key that `Less` reads. -/
def sortKey (a : ListItem) : ListStatus × GoString := (a.Status, a.Path)

/-- The answer of `Less` for a record `a` at one index and a record `b` at another. -/
def lessItems (a b : ListItem) : Bool :=
  listItemSort.Less [a, b] ⟨0, by simp⟩ ⟨1, by simp⟩

/-- Place `a` in front of the first record that is not `Less` than it. -/
def insertItem (a : ListItem) : listItemSort → listItemSort
  | [] => [a]
  | b :: l => if lessItems b a then b :: insertItem a l else a :: b :: l

/-- A sort that meets `SortContract` and keeps equal keys in their given order. -/
def stableSort : listItemSort → listItemSort
  | [] => []
  | a :: l => insertItem a (stableSort l)

/-- A loader test double that succeeds: it installs the packages `pkgs` and sets the
flag. -/
def loaderOk (pkgs : List Package) : Loader :=
  fun _ => ({ loaded := true, Package := pkgs }, none)

/-- A loader test double that fails with `e` and leaves the context as it was. -/
def loaderFail (e : GoError) : Loader :=
  fun ctx => (ctx, some e)

/-- The packages of the ordering scenario of the spec, in one enumeration order. -/
def scenario : List Package :=
  [⟨StatusMissing, "z/pkg", ""⟩, ⟨StatusVendor, "a/pkg", ""⟩,
   ⟨StatusVendor, "b/pkg", ""⟩, ⟨StatusLocal, "m/pkg", ""⟩]

/-- Two packages with the same status and canonical path and different local paths. -/
def twins : List Package :=
  [⟨StatusVendor, "a/pkg", "vendor/a/pkg"⟩, ⟨StatusVendor, "a/pkg", "internal/a/pkg"⟩]

/-- The packages of `twins`, enumerated in the other order. -/
def twinsSwapped : List Package :=
  [⟨StatusVendor, "a/pkg", "internal/a/pkg"⟩, ⟨StatusVendor, "a/pkg", "vendor/a/pkg"⟩]

/-- Exchange the two local paths of `twins`, leaving `Status` and `Path` as they are. -/
def exchangeLocal (r : ListItem) : ListItem :=
  if r.VendorPath = "vendor/a/pkg" then { r with VendorPath := "internal/a/pkg" }
  else if r.VendorPath = "internal/a/pkg" then { r with VendorPath := "vendor/a/pkg" }
  else r

/-- The statuses in the order in which the report lists them. -/
def displayOrder : List ListStatus :=
  [StatusVendor, StatusProgram, StatusUnused, StatusInternal, StatusExternal,
   StatusLocal, StatusStd, StatusMissing, StatusUnknown]

/-- Packages of the scenario together with one whose status is unknown. -/
def withUnknown : List Package :=
  [⟨StatusUnknown, "q/pkg", ""⟩, ⟨StatusMissing, "z/pkg", ""⟩, ⟨StatusVendor, "a/pkg", ""⟩]

/-- A context that has not been loaded and holds no packages. -/
def freshContext : Context := ⟨false, []⟩

/-- A record whose path contains a space and ends in a bracket, without vendor path. -/
def bracketInPath : ListItem := ⟨StatusLocal, "a [b]", ""⟩

/-- A record with the path `a` and the vendor path `b`. -/
def bracketFromVendor : ListItem := ⟨StatusLocal, "a", "b"⟩

/-- The vendor path that `ListItem.String` prints: none when `VendorPath` is empty or
equal to `Path`. -/
def effectiveVendorPath (li : ListItem) : GoString :=
  if li.VendorPath.length = 0 ∨ li.VendorPath = li.Path then "" else li.VendorPath

/-! ### The routine `sort.Sort` of the Go standard library

`sort.Sort` as of Go 1.19 (pattern-defeating quicksort, file `sort/zsortinterface.go`),
written over the methods `Len`, `Less` and `Swap` of `listItemSort`. Every run in which
each partition is reasonably balanced is embedded. After a badly balanced partition the
library scatters elements with a pseudo-random generator (`breakPatterns`) and, when its
`limit` is used up, falls back to `heapSort`; these two branches are not embedded, and a
run that reaches one of them ends in `none`. -/

/-- The call `data.Less(i, j)` with the indices as numbers. `sort.Sort` keeps its indices
inside the slice; for an index outside it, a run-time panic in Go, the answer here is
`false`. -/
def lessAt (data : listItemSort) (i j : Nat) : Bool :=
  if h : i < data.length ∧ j < data.length then data.Less ⟨i, h.1⟩ ⟨j, h.2⟩ else false

/-- The call `data.Swap(i, j)` with the indices as numbers; an index outside the slice
leaves the slice as it is. -/
def swapAt (data : listItemSort) (i j : Nat) : listItemSort :=
  if h : i < data.length ∧ j < data.length then data.Swap ⟨i, h.1⟩ ⟨j, h.2⟩ else data

/-- The inner loop of `insertionSort`, `for j := i; j > a && data.Less(j, j-1); j--` with
the body `data.Swap(j, j-1)`, by recursion on `j`. -/
def insertionSortInner (a : Nat) : Nat → listItemSort → listItemSort
  | 0, data => data
  | j + 1, data =>
    if j + 1 > a ∧ lessAt data (j + 1) j = true then
      insertionSortInner a j (swapAt data (j + 1) j)
    else data

/-- The outer loop of `insertionSort`, `for i := a + 1; i < b; i++`; the first argument
counts the rounds that are left, `b - i`. -/
def insertionSortFrom (a : Nat) : Nat → Nat → listItemSort → listItemSort
  | 0, _, data => data
  | n + 1, i, data => insertionSortFrom a n (i + 1) (insertionSortInner a i data)

/-- The function `insertionSort`: sorts `data[a:b]` using insertion sort. -/
def insertionSort (data : listItemSort) (a b : Nat) : listItemSort :=
  insertionSortFrom a (b - (a + 1)) (a + 1) data

/-- The function `order2`: returns `x, y` where `data[x] <= data[y]`; the third component
is the counter behind the pointer `swaps`. -/
def order2 (data : listItemSort) (a b swaps : Nat) : Nat × Nat × Nat :=
  if lessAt data b a = true then (b, a, swaps + 1) else (a, b, swaps)

/-- The function `median`: the index of the median of `data[a]`, `data[b]`, `data[c]`,
with the counter `swaps`. -/
def median (data : listItemSort) (a b c swaps : Nat) : Nat × Nat :=
  match order2 data a b swaps with
  | (a, b, swaps) =>
    match order2 data b c swaps with
    | (b, _, swaps) =>
      match order2 data a b swaps with
      | (_, b, swaps) => (b, swaps)

/-- The function `medianAdjacent`: the median of `data[a - 1]`, `data[a]`, `data[a + 1]`. -/
def medianAdjacent (data : listItemSort) (a swaps : Nat) : Nat × Nat :=
  median data (a - 1) a (a + 1) swaps

/-- The type `sortedHint`: the hint for `pdqsort` when choosing the pivot. -/
inductive sortedHint where
  | unknownHint
  | increasingHint
  | decreasingHint
deriving DecidableEq, Repr

/-- The `switch swaps` at the end of `choosePivot`, with `maxSwaps = 4 * 3`. -/
def hintOfSwaps (swaps : Nat) : sortedHint :=
  if swaps = 0 then sortedHint.increasingHint
  else if swaps = 4 * 3 then sortedHint.decreasingHint
  else sortedHint.unknownHint

/-- The function `choosePivot`: a static pivot for fewer than 8 elements, the median of
three below `shortestNinther = 50`, the Tukey ninther from there on. -/
def choosePivot (data : listItemSort) (a b : Nat) : Nat × sortedHint :=
  let l := b - a
  let i := a + l / 4 * 1
  let j := a + l / 4 * 2
  let k := a + l / 4 * 3
  if l ≥ 8 then
    if l ≥ 50 then
      match medianAdjacent data i 0 with
      | (i, swaps) =>
        match medianAdjacent data j swaps with
        | (j, swaps) =>
          match medianAdjacent data k swaps with
          | (k, swaps) =>
            match median data i j k swaps with
            | (j, swaps) => (j, hintOfSwaps swaps)
    else
      match median data i j k 0 with
      | (j, swaps) => (j, hintOfSwaps swaps)
  else (j, hintOfSwaps 0)

/-- The loop of `reverseRange`, `for i < j` with the body `data.Swap(i, j); i++; j--`; the
first argument bounds the rounds. -/
def reverseRangeFrom : Nat → Nat → Nat → listItemSort → listItemSort
  | 0, _, _, data => data
  | n + 1, i, j, data =>
    if i < j then reverseRangeFrom n (i + 1) (j - 1) (swapAt data i j) else data

/-- The function `reverseRange`. -/
def reverseRange (data : listItemSort) (a b : Nat) : listItemSort :=
  reverseRangeFrom (b - a) a (b - 1) data

/-- In `partialInsertionSort`: the loop `for i < b && !data.Less(i, i-1)` with the body `i++`; the first
argument is `b - i`, the number of rounds that `i < b` allows. -/
def skipOrdered (data : listItemSort) (b : Nat) : Nat → Nat → Nat
  | 0, i => i
  | n + 1, i =>
    if i < b ∧ lessAt data i (i - 1) = false then skipOrdered data b n (i + 1) else i

/-- In `partialInsertionSort`: shift the smaller one to the left,
`for j := i - 1; j >= 1; j--`, leaving the loop when `!data.Less(j, j-1)`. -/
def shiftSmaller : Nat → listItemSort → listItemSort
  | 0, data => data
  | j + 1, data =>
    if lessAt data (j + 1) j = false then data
    else shiftSmaller j (swapAt data (j + 1) j)

/-- In `partialInsertionSort`: shift the greater one to the right,
`for j := i + 1; j < b; j++`, leaving the loop when `!data.Less(j, j-1)`; the first
argument is `b - j`. -/
def shiftGreater (b : Nat) : Nat → Nat → listItemSort → listItemSort
  | 0, _, data => data
  | n + 1, j, data =>
    if j < b then
      if lessAt data j (j - 1) = false then data
      else shiftGreater b n (j + 1) (swapAt data j (j - 1))
    else data

/-- The loop `for j := 0; j < maxSteps; j++` of `partialInsertionSort`; the first argument
counts the steps that are left, and `shortestShifting = 50`. -/
def partialInsertionSortSteps (a b : Nat) : Nat → Nat → listItemSort → listItemSort × Bool
  | 0, _, data => (data, false)
  | s + 1, i, data =>
    let i := skipOrdered data b (b - i) i
    if i = b then (data, true)
    else if b - a < 50 then (data, false)
    else
      let data := swapAt data i (i - 1)
      let data := if i - a ≥ 2 then shiftSmaller (i - 1) data else data
      let data := if b - i ≥ 2 then shiftGreater b (b - (i + 1)) (i + 1) data else data
      partialInsertionSortSteps a b s i data

/-- The function `partialInsertionSort`: partially sorts a slice, returns true if the
slice is sorted at the end; `maxSteps = 5`. -/
def partialInsertionSort (data : listItemSort) (a b : Nat) : listItemSort × Bool :=
  partialInsertionSortSteps a b 5 (a + 1) data

/-- In `partition`: the loop `for i <= j && data.Less(i, a)` with the body `i++`; the first argument is
`j + 1 - i`, the number of rounds that `i <= j` allows. -/
def scanLess (data : listItemSort) (a j : Nat) : Nat → Nat → Nat
  | 0, i => i
  | n + 1, i => if i ≤ j ∧ lessAt data i a = true then scanLess data a j n (i + 1) else i

/-- In `partition`: the loop `for i <= j && !data.Less(j, a)` with the body `j--`; the first argument is
`j + 1 - i`. -/
def scanNotLess (data : listItemSort) (a i : Nat) : Nat → Nat → Nat
  | 0, j => j
  | n + 1, j => if i ≤ j ∧ lessAt data j a = false then scanNotLess data a i n (j - 1) else j

/-- The endless `for` loop of `partition`: both scans, `break` when `i > j`, otherwise
`data.Swap(i, j); i++; j--`. The first argument is at least `j + 1 - i`; when it is 0,
`i > j` holds and the loop is left. -/
def partitionRounds (a : Nat) : Nat → Nat → Nat → listItemSort → listItemSort × Nat
  | 0, _, j, data => (data, j)
  | n + 1, i, j, data =>
    let i1 := scanLess data a j (j + 1 - i) i
    let j1 := scanNotLess data a i1 (j + 1 - i1) j
    if i1 > j1 then (data, j1)
    else partitionRounds a n (i1 + 1) (j1 - 1) (swapAt data i1 j1)

/-- The function `partition`: one quicksort partition of `data[a:b]` around `data[pivot]`;
returns the slice, the new index of the pivot and whether the slice was already
partitioned. -/
def partition (data : listItemSort) (a b pivot : Nat) : listItemSort × Nat × Bool :=
  let data0 := swapAt data a pivot
  let i := scanLess data0 a (b - 1) (b - 1 + 1 - (a + 1)) (a + 1)
  let j := scanNotLess data0 a i (b - 1 + 1 - i) (b - 1)
  if i > j then (swapAt data0 j a, j, true)
  else
    match partitionRounds a (j + 1 - i) (i + 1) (j - 1) (swapAt data0 i j) with
    | (data1, j1) => (swapAt data1 j1 a, j1, false)

/-- In `partitionEqual`: the loop `for i <= j && !data.Less(a, i)` with the body `i++`; the first argument
is `j + 1 - i`. -/
def scanNotGreater (data : listItemSort) (a j : Nat) : Nat → Nat → Nat
  | 0, i => i
  | n + 1, i =>
    if i ≤ j ∧ lessAt data a i = false then scanNotGreater data a j n (i + 1) else i

/-- In `partitionEqual`: the loop `for i <= j && data.Less(a, j)` with the body `j--`; the first argument
is `j + 1 - i`. -/
def scanGreater (data : listItemSort) (a i : Nat) : Nat → Nat → Nat
  | 0, j => j
  | n + 1, j => if i ≤ j ∧ lessAt data a j = true then scanGreater data a i n (j - 1) else j

/-- The endless `for` loop of `partitionEqual`; the first argument is at least
`j + 1 - i`. Returns the slice and `i`. -/
def partitionEqualRounds (a : Nat) : Nat → Nat → Nat → listItemSort → listItemSort × Nat
  | 0, i, _, data => (data, i)
  | n + 1, i, j, data =>
    let i1 := scanNotGreater data a j (j + 1 - i) i
    let j1 := scanGreater data a i1 (j + 1 - i1) j
    if i1 > j1 then (data, i1)
    else partitionEqualRounds a n (i1 + 1) (j1 - 1) (swapAt data i1 j1)

/-- The function `partitionEqual`: partitions `data[a:b]` into elements equal to
`data[pivot]` followed by elements greater than `data[pivot]`. -/
def partitionEqual (data : listItemSort) (a b pivot : Nat) : listItemSort × Nat :=
  partitionEqualRounds a (b - 1 + 1 - (a + 1) + 1) (a + 1) (b - 1) (swapAt data a pivot)

/-- The function `pdqsort`: sorts `data[a:b]`, with `maxInsertion = 12`. The two flags
are the local variables `wasBalanced` and `wasPartitioned`, both `true` when the
function is entered; a call with other flags is the next round of its `for` loop. Every
round and every inner call works on a shorter range `data[a:b]`, so a first argument of
at least `b - a` is never used up before the range has at most 12 elements. -/
def pdqsort : Nat → listItemSort → Nat → Nat → Nat → Bool → Bool → Option listItemSort
  | fuel, data, a, b, limit, wasBalanced, wasPartitioned =>
    if b - a ≤ 12 then some (insertionSort data a b)
    else
      match fuel with
      | 0 => none
      | f + 1 =>
        if limit = 0 then none
        else if wasBalanced = false then none
        else
          match choosePivot data a b with
          | (pivot0, hint0) =>
            let data1 := if hint0 = sortedHint.decreasingHint then reverseRange data a b
              else data
            let pivot := if hint0 = sortedHint.decreasingHint then (b - 1) - (pivot0 - a)
              else pivot0
            let hint := if hint0 = sortedHint.decreasingHint then sortedHint.increasingHint
              else hint0
            match (if wasBalanced ∧ wasPartitioned ∧ hint = sortedHint.increasingHint
                then partialInsertionSort data1 a b else (data1, false)) with
            | (data2, true) => some data2
            | (data2, false) =>
              if a > 0 ∧ lessAt data2 (a - 1) pivot = false then
                match partitionEqual data2 a b pivot with
                | (data3, mid) => pdqsort f data3 mid b limit wasBalanced wasPartitioned
              else
                match partition data2 a b pivot with
                | (data3, mid, alreadyPartitioned) =>
                  if mid - a < b - mid then
                    match pdqsort f data3 a mid limit true true with
                    | none => none
                    | some data4 =>
                      pdqsort f data4 (mid + 1) b limit (decide (mid - a ≥ (b - a) / 8))
                        alreadyPartitioned
                  else
                    match pdqsort f data3 (mid + 1) b limit true true with
                    | none => none
                    | some data4 =>
                      pdqsort f data4 a mid limit (decide (b - mid ≥ (b - a) / 8))
                        alreadyPartitioned

/-- The function `bits.Len`: the number of bits needed to write `x`; the first argument
bounds the halvings. -/
def bitsLen : Nat → Nat → Nat
  | 0, _ => 0
  | f + 1, x => if x = 0 then 0 else bitsLen f (x / 2) + 1

/-- The function `sort.Sort`: `n := data.Len()`, nothing to do for `n <= 1`, otherwise
`pdqsort(data, 0, n, bits.Len(uint(n)))`. -/
def goSort (data : listItemSort) : Option listItemSort :=
  if data.Len ≤ 1 then some data
  else pdqsort data.Len data 0 data.Len (bitsLen data.Len data.Len) true true

/-- The routine handed to `ListStatus`: `sort.Sort`, for the runs that are embedded. -/
def goSortEmbedded (data : listItemSort) : listItemSort :=
  match goSort data with
  | some out => out
  | none => data

/-- Thirteen packages, enumerated in report order except that the package that sorts
first comes last; the first two are `twins`. -/
def thirteen : List Package :=
  [⟨StatusVendor, "a/pkg", "vendor/a/pkg"⟩, ⟨StatusVendor, "a/pkg", "internal/a/pkg"⟩,
   ⟨StatusVendor, "b/pkg", ""⟩, ⟨StatusVendor, "c/pkg", ""⟩, ⟨StatusProgram, "d/cmd", ""⟩,
   ⟨StatusUnused, "e/pkg", ""⟩, ⟨StatusInternal, "f/pkg", ""⟩, ⟨StatusExternal, "g/pkg", ""⟩,
   ⟨StatusExternal, "h/pkg", ""⟩, ⟨StatusLocal, "i/pkg", ""⟩, ⟨StatusStd, "fmt", ""⟩,
   ⟨StatusMissing, "z/pkg", ""⟩, ⟨StatusVendor, "a/app", ""⟩]

set_option maxRecDepth 8000

/-! ## The comparator -/

theorem strLess_iff (a b : GoString) : strLess a b = true ↔ a < b := by
  unfold strLess
  rw [decide_eq_true_iff]
  exact String.lt_iff_toList_lt.symm

theorem lessItems_iff (a b : ListItem) :
    lessItems a b = true ↔ b.Status < a.Status ∨ (a.Status = b.Status ∧ a.Path < b.Path) := by
  unfold lessItems listItemSort.Less
  simp only [List.get_eq_getElem, List.getElem_cons_zero, List.getElem_cons_succ]
  by_cases h : a.Status = b.Status
  · simp [h, strLess_iff]
  · simp only [h, if_false, decide_eq_true_iff, false_and, or_false]

theorem less_eq_lessItems (li : listItemSort) (i j : Fin li.length) :
    li.Less i j = lessItems (li.get i) (li.get j) := by
  unfold lessItems listItemSort.Less
  simp

theorem lessItems_irrefl (a : ListItem) : lessItems a a = false := by
  rw [← Bool.not_eq_true, lessItems_iff]
  simp

theorem lessItems_trans {a b c : ListItem} (h1 : lessItems a b = true)
    (h2 : lessItems b c = true) : lessItems a c = true := by
  rw [lessItems_iff] at *
  rcases h1 with h1 | ⟨h1, h1p⟩ <;> rcases h2 with h2 | ⟨h2, h2p⟩
  · exact Or.inl (lt_trans h2 h1)
  · exact Or.inl (h2 ▸ h1)
  · exact Or.inl (h1 ▸ h2)
  · exact Or.inr ⟨h1.trans h2, lt_trans h1p h2p⟩

theorem lessItems_total (a b : ListItem) :
    lessItems a b = true ∨ lessItems b a = true ∨ sortKey a = sortKey b := by
  simp only [lessItems_iff, sortKey, Prod.mk.injEq]
  rcases lt_trichotomy a.Status b.Status with h | h | h
  · exact Or.inr (Or.inl (Or.inl h))
  · rcases lt_trichotomy a.Path b.Path with hp | hp | hp
    · exact Or.inl (Or.inr ⟨h, hp⟩)
    · exact Or.inr (Or.inr ⟨h, hp⟩)
    · exact Or.inr (Or.inl (Or.inr ⟨h.symm, hp⟩))
  · exact Or.inl (Or.inl h)

theorem lessItems_asymm {a b : ListItem} (h : lessItems a b = true) : lessItems b a = false := by
  rw [← Bool.not_eq_true]
  intro h2
  have := lessItems_trans h h2
  rw [lessItems_irrefl] at this
  exact Bool.false_ne_true this

/-- "Not after": `b` is not `Less` than `a`. -/
theorem notLess_trans {a b c : ListItem} (h1 : lessItems b a = false)
    (h2 : lessItems c b = false) : lessItems c a = false := by
  rw [← Bool.not_eq_true] at *
  rw [lessItems_iff] at *
  push_neg at *
  obtain ⟨h1a, h1b⟩ := h1
  obtain ⟨h2a, h2b⟩ := h2
  refine ⟨le_trans h2a h1a, fun h => ?_⟩
  have e1 : b.Status = a.Status := le_antisymm h1a (h ▸ h2a)
  have e2 : c.Status = b.Status := h.trans e1.symm
  exact le_trans (h1b e1) (h2b e2)

/-! ## Sortedness -/

theorem isSorted_iff_chain (li : listItemSort) :
    IsSorted li ↔ List.Chain' (fun a b => lessItems b a = false) li := by
  rw [List.chain'_iff_get]
  unfold IsSorted
  constructor
  · intro h i hi
    have := h ⟨i + 1, by omega⟩ (by simp)
    rw [less_eq_lessItems] at this
    simpa using this
  · intro h i hi
    rw [less_eq_lessItems]
    have := h (i.val - 1) (by omega)
    have e : i.val - 1 + 1 = i.val := by omega
    simp only [e] at this
    exact this

theorem isSorted_iff_pairwise (li : listItemSort) :
    IsSorted li ↔ List.Pairwise (fun a b => lessItems b a = false) li := by
  rw [isSorted_iff_chain]
  haveI : IsTrans ListItem (fun a b => lessItems b a = false) :=
    ⟨fun _ _ _ h1 h2 => notLess_trans h1 h2⟩
  exact List.chain'_iff_pairwise

/-! ## Swaps and permutations -/

theorem swap_cons_succ (a : ListItem) (l : listItemSort) (i j : Fin l.length) :
    listItemSort.Swap (a :: l) i.succ j.succ = a :: listItemSort.Swap l i j := by
  simp [listItemSort.Swap]

theorem swap_perm (li : listItemSort) (i j : Fin li.length) :
    (li.Swap i j).Perm li := by
  rw [List.perm_iff_count]
  intro a
  unfold listItemSort.Swap
  have hj : j.val < (li.set i.val (li.get j)).length := by simp
  rw [List.count_set _ _ _ _ hj, List.count_set _ _ _ _ i.isLt]
  have hget : (li.set i.val (li.get j))[j.val] = li.get j := by
    rw [List.getElem_set]
    split
    · rfl
    · rfl
  rw [hget]
  have hle : (if li[i.val] == a then 1 else 0) ≤ li.count a :=
    List.boole_getElem_le_count a li i.val i.isLt
  simp only [List.get_eq_getElem] at *
  omega

theorem swapReach_perm {li out : listItemSort} (h : SwapReach li out) : out.Perm li := by
  induction h with
  | done li => exact List.Perm.refl li
  | step li out i j _ ih => exact ih.trans (swap_perm li i j)

theorem swapReach_trans {a b c : listItemSort} (h1 : SwapReach a b) (h2 : SwapReach b c) :
    SwapReach a c := by
  induction h1 with
  | done li => exact h2
  | step li out i j _ ih => exact SwapReach.step li c i j (ih h2)

theorem swapReach_cons (a : ListItem) {l out : listItemSort} (h : SwapReach l out) :
    SwapReach (a :: l) (a :: out) := by
  induction h with
  | done li => exact SwapReach.done _
  | step li out i j _ ih =>
    refine SwapReach.step (a :: li) (a :: out) i.succ j.succ ?_
    rw [swap_cons_succ]
    exact ih

theorem swapReach_of_perm {li out : listItemSort} (h : li.Perm out) : SwapReach li out := by
  induction h with
  | nil => exact SwapReach.done _
  | cons a _ ih => exact swapReach_cons a ih
  | swap a b l =>
    refine SwapReach.step (b :: a :: l) (a :: b :: l) ⟨0, by simp⟩ ⟨1, by simp⟩ ?_
    have : listItemSort.Swap (b :: a :: l) ⟨0, by simp⟩ ⟨1, by simp⟩ = a :: b :: l := by
      simp [listItemSort.Swap]
    rw [this]
    exact SwapReach.done _
  | trans _ _ ih1 ih2 => exact swapReach_trans ih1 ih2

/-! ## The loop of `ListStatus` -/

theorem collect_eq_map (pkgs : List Package) : collect pkgs = pkgs.map itemOf := by
  unfold collect
  have h : ∀ (l : List Package) (acc : listItemSort),
      l.foldl (fun list pkg => list ++ [itemOf pkg]) acc = acc ++ l.map itemOf := by
    intro l
    induction l with
    | nil => intro acc; simp
    | cons p l ih => intro acc; simp [ih]
  simpa using h pkgs []

/-! ## Two sorts that meet the contract -/

theorem insertItem_perm (a : ListItem) (l : listItemSort) : (insertItem a l).Perm (a :: l) := by
  induction l with
  | nil => exact List.Perm.refl _
  | cons b l ih =>
    unfold insertItem
    split
    · exact (List.Perm.cons b ih).trans (List.Perm.swap a b l)
    · exact List.Perm.refl _

theorem stableSort_perm (l : listItemSort) : (stableSort l).Perm l := by
  induction l with
  | nil => exact List.Perm.refl _
  | cons a l ih =>
    unfold stableSort
    exact (insertItem_perm a _).trans (List.Perm.cons a ih)

theorem insertItem_pairwise (a : ListItem) (l : listItemSort)
    (h : List.Pairwise (fun x y => lessItems y x = false) l) :
    List.Pairwise (fun x y => lessItems y x = false) (insertItem a l) := by
  induction l with
  | nil => simp [insertItem]
  | cons b l ih =>
    unfold insertItem
    rw [List.pairwise_cons] at h
    split
    · rename_i hba
      rw [List.pairwise_cons]
      refine ⟨fun y hy => ?_, ih h.2⟩
      have hy2 := (insertItem_perm a l).mem_iff.1 hy
      simp only [List.mem_cons] at hy2
      rcases hy2 with rfl | hy2
      · exact lessItems_asymm hba
      · exact h.1 y hy2
    · rename_i hba
      have hba : lessItems b a = false := by simpa using hba
      rw [List.pairwise_cons]
      refine ⟨fun y hy => ?_, List.pairwise_cons.2 h⟩
      simp only [List.mem_cons] at hy
      rcases hy with rfl | hy
      · exact hba
      · exact notLess_trans hba (h.1 y hy)

theorem stableSort_pairwise (l : listItemSort) :
    List.Pairwise (fun x y => lessItems y x = false) (stableSort l) := by
  induction l with
  | nil => simp [stableSort]
  | cons a l ih => exact insertItem_pairwise a _ ih

theorem lessItems_congr {a b c d : ListItem} (hs1 : c.Status = a.Status)
    (hp1 : c.Path = a.Path) (hs2 : d.Status = b.Status) (hp2 : d.Path = b.Path) :
    lessItems c d = lessItems a b := by
  rw [Bool.eq_iff_iff, lessItems_iff, lessItems_iff, hs1, hp1, hs2, hp2]

theorem insertItem_map (f : ListItem → ListItem)
    (hf : ∀ x, (f x).Status = x.Status ∧ (f x).Path = x.Path) (a : ListItem)
    (l : listItemSort) : insertItem (f a) (l.map f) = (insertItem a l).map f := by
  induction l with
  | nil => rfl
  | cons b l ih =>
    simp only [List.map_cons, insertItem]
    rw [lessItems_congr (hf b).1 (hf b).2 (hf a).1 (hf a).2]
    split
    · simp [ih]
    · simp

theorem stableSort_map (f : ListItem → ListItem)
    (hf : ∀ x, (f x).Status = x.Status ∧ (f x).Path = x.Path) (l : listItemSort) :
    stableSort (l.map f) = (stableSort l).map f := by
  induction l with
  | nil => rfl
  | cons a l ih =>
    simp only [List.map_cons, stableSort]
    rw [ih, insertItem_map f hf]

theorem stableSort_contract : SortContract stableSort where
  swaps := fun li => swapReach_of_perm (stableSort_perm li).symm
  sorted := fun li => (isSorted_iff_pairwise _).2 (stableSort_pairwise li)
  oblivious := fun f hf li => stableSort_map f hf li

/-! ## What `ListStatus` returns when it succeeds -/

theorem listStatus_err_none_iff (sort : listItemSort → listItemSort) (ld : Loader)
    (ctx : Context) :
    (ctx.ListStatus sort ld).err = none ↔ (ctx.loaded = true ∨ (ld ctx).2 = none) := by
  unfold Context.ListStatus
  cases hl : ctx.loaded
  · rcases h : ld ctx with ⟨c1, _ | e⟩ <;> simp
  · simp

theorem listStatus_list_of_ok (sort : listItemSort → listItemSort) (ld : Loader)
    (ctx : Context) (h : (ctx.ListStatus sort ld).err = none) :
    (ctx.ListStatus sort ld).list = sort ((ctx.ListStatus sort ld).ctx.Package.map itemOf) := by
  unfold Context.ListStatus at *
  cases hl : ctx.loaded
  · rw [hl] at h
    rcases hld : ld ctx with ⟨c1, _ | e⟩
    · simp [hld, collect_eq_map]
    · simp [hld] at h
  · simp [collect_eq_map]

theorem listStatus_pairwise (sort : listItemSort → listItemSort) (hs : SortContract sort)
    (ld : Loader) (ctx : Context) (h : (ctx.ListStatus sort ld).err = none) :
    List.Pairwise (fun a b => lessItems b a = false) (ctx.ListStatus sort ld).list := by
  rw [listStatus_list_of_ok sort ld ctx h]
  exact (isSorted_iff_pairwise _).1 (hs.sorted _)

theorem listStatus_perm (sort : listItemSort → listItemSort) (hs : SortContract sort)
    (ld : Loader) (ctx : Context) (h : (ctx.ListStatus sort ld).err = none) :
    (ctx.ListStatus sort ld).list.Perm ((ctx.ListStatus sort ld).ctx.Package.map itemOf) := by
  rw [listStatus_list_of_ok sort ld ctx h]
  exact swapReach_perm (hs.swaps _)

theorem notLess_iff (a b : ListItem) :
    lessItems b a = false ↔
      b.Status ≤ a.Status ∧ (a.Status = b.Status → a.Path ≤ b.Path) := by
  rw [← Bool.not_eq_true, lessItems_iff]
  push_neg
  constructor
  · rintro ⟨h1, h2⟩
    exact ⟨h1, fun e => h2 e.symm⟩
  · rintro ⟨h1, h2⟩
    exact ⟨h1, fun e => h2 e.symm⟩

theorem sorted_perm_unique {l1 l2 : listItemSort}
    (hinj : ∀ a ∈ l1, ∀ b ∈ l1, sortKey a = sortKey b → a = b)
    (h1 : List.Pairwise (fun a b => lessItems b a = false) l1)
    (h2 : List.Pairwise (fun a b => lessItems b a = false) l2)
    (hp : l1.Perm l2) : l1 = l2 := by
  refine List.Perm.eq_of_sorted (fun a b ha hb hab hba => ?_) h1 h2 hp
  have hb1 : b ∈ l1 := hp.mem_iff.2 hb
  rcases lessItems_total a b with h | h | h
  · rw [h] at hba; exact absurd hba (by decide)
  · rw [h] at hab; exact absurd hab (by decide)
  · exact hinj a ha b hb1 h

/-! ## The claims -/

/-- C1. Whenever `ListStatus` succeeds, the returned records are sorted by status rank
descending and, within one status, by path ascending: for positions `i < j` the status at
`i` is at least the status at `j`, and when the two are equal the path at `i` is at most
the path at `j`; so a record of strictly greater status stands before one of smaller
status. In the scenario of the spec (Missing `z/pkg`, Vendor `a/pkg`, Vendor `b/pkg`,
Local `m/pkg`, enumerated in any order, with any local paths) the result is Vendor
`a/pkg`, Vendor `b/pkg`, Local `m/pkg`, Missing `z/pkg`. -/
theorem listStatus_sorted_by_status_then_path (sort : listItemSort → listItemSort)
    (hs : SortContract sort) (ld : Loader) (ctx : Context)
    (hok : (ctx.ListStatus sort ld).err = none) :
    (∀ i j : Fin (ctx.ListStatus sort ld).list.length, i < j →
      ((ctx.ListStatus sort ld).list.get j).Status ≤ ((ctx.ListStatus sort ld).list.get i).Status ∧
      (((ctx.ListStatus sort ld).list.get i).Status = ((ctx.ListStatus sort ld).list.get j).Status →
        ((ctx.ListStatus sort ld).list.get i).Path ≤ ((ctx.ListStatus sort ld).list.get j).Path)) ∧
    (∀ i j : Fin (ctx.ListStatus sort ld).list.length,
      ((ctx.ListStatus sort ld).list.get j).Status < ((ctx.ListStatus sort ld).list.get i).Status →
        i < j) ∧
    (∀ lz la lb lm : GoString,
      (ctx.ListStatus sort ld).ctx.Package.Perm
        [⟨StatusMissing, "z/pkg", lz⟩, ⟨StatusVendor, "a/pkg", la⟩,
         ⟨StatusVendor, "b/pkg", lb⟩, ⟨StatusLocal, "m/pkg", lm⟩] →
      (ctx.ListStatus sort ld).list =
        [⟨StatusVendor, "a/pkg", la⟩, ⟨StatusVendor, "b/pkg", lb⟩,
         ⟨StatusLocal, "m/pkg", lm⟩, ⟨StatusMissing, "z/pkg", lz⟩]) := by
  have hpw := listStatus_pairwise sort hs ld ctx hok
  have hget : ∀ i j : Fin (ctx.ListStatus sort ld).list.length, i < j →
      lessItems ((ctx.ListStatus sort ld).list.get j) ((ctx.ListStatus sort ld).list.get i)
        = false := fun i j hij => List.pairwise_iff_get.1 hpw i j hij
  refine ⟨fun i j hij => (notLess_iff _ _).1 (hget i j hij), fun i j hlt => ?_, ?_⟩
  · by_contra hij
    rcases lt_or_eq_of_le (not_lt.1 hij) with h | h
    · exact absurd hlt (not_lt.2 ((notLess_iff _ _).1 (hget j i h)).1)
    · rw [h] at hlt
      exact lt_irrefl _ hlt
  · intro lz la lb lm hperm
    have hp := (listStatus_perm sort hs ld ctx hok).trans (hperm.map itemOf)
    refine sorted_perm_unique ?_ hpw ?_ (hp.trans ?_)
    · intro a ha b hb hk
      have ha2 := hp.mem_iff.1 ha
      have hb2 := hp.mem_iff.1 hb
      simp only [List.map_cons, List.map_nil, itemOf, List.mem_cons, List.mem_singleton,
        List.mem_nil_iff, or_false] at ha2 hb2
      rcases ha2 with rfl | rfl | rfl | rfl <;> rcases hb2 with rfl | rfl | rfl | rfl <;>
        first
          | rfl
          | (exfalso; revert hk; simp [sortKey, StatusMissing, StatusVendor, StatusLocal])
    · have hab : ("a/pkg" : GoString) ≤ "b/pkg" := le_of_lt ((strLess_iff _ _).1 (by decide))
      simp only [List.pairwise_cons, List.mem_cons, List.mem_singleton, List.not_mem_nil,
        forall_eq_or_imp, forall_eq, notLess_iff, StatusMissing, StatusVendor, StatusLocal,
        List.Pairwise.nil, and_true, false_imp_iff, implies_true]
      simp [hab]
    · exact @List.perm_append_comm _ [_] [_, _, _]

/-- Witness of C1: the scenario of the spec, loaded by the first call. -/
theorem listStatus_sorted_scenario :
    (Context.ListStatus stableSort (loaderOk scenario) ⟨false, []⟩).err = none ∧
    (Context.ListStatus stableSort (loaderOk scenario) ⟨false, []⟩).list =
      [⟨StatusVendor, "a/pkg", ""⟩, ⟨StatusVendor, "b/pkg", ""⟩,
       ⟨StatusLocal, "m/pkg", ""⟩, ⟨StatusMissing, "z/pkg", ""⟩] :=
  ⟨by decide,
   (listStatus_sorted_by_status_then_path stableSort stableSort_contract (loaderOk scenario)
      ⟨false, []⟩ (by decide)).2.2 "" "" "" "" (List.Perm.refl _)⟩

/-- C2. Whenever `ListStatus` succeeds, the returned sequence is a permutation of the
records built from the analyzed packages, one record per package with `Status`, `Path`
and `VendorPath` copied from `Status`, `CanonicalPath` and `LocalPath`: same length, and
every record occurs in the result exactly as often as among the packages, also when
packages share status and canonical path. -/
theorem listStatus_perm_of_packages (sort : listItemSort → listItemSort)
    (hs : SortContract sort) (ld : Loader) (ctx : Context)
    (hok : (ctx.ListStatus sort ld).err = none) :
    (ctx.ListStatus sort ld).list.Perm
      ((ctx.ListStatus sort ld).ctx.Package.map
        (fun p => ⟨p.Status, p.CanonicalPath, p.LocalPath⟩)) ∧
    (ctx.ListStatus sort ld).list.length = (ctx.ListStatus sort ld).ctx.Package.length ∧
    (∀ r : ListItem, (ctx.ListStatus sort ld).list.count r =
      ((ctx.ListStatus sort ld).ctx.Package.map
        (fun p => (⟨p.Status, p.CanonicalPath, p.LocalPath⟩ : ListItem))).count r) := by
  have hp := listStatus_perm sort hs ld ctx hok
  refine ⟨hp, ?_, fun r => hp.count_eq r⟩
  simpa using hp.length_eq

/-- Witness of C2: two packages that share status and canonical path are both kept. -/
theorem listStatus_perm_twins :
    (Context.ListStatus stableSort (loaderOk twins) ⟨false, []⟩).err = none ∧
    (Context.ListStatus stableSort (loaderOk twins) ⟨false, []⟩).list.length = 2 :=
  ⟨by decide,
   (listStatus_perm_of_packages stableSort stableSort_contract (loaderOk twins)
      ⟨false, []⟩ (by decide)).2.1⟩

theorem sameKeys_of_perm {l1 l2 : listItemSort}
    (h1 : List.Pairwise (fun a b => lessItems b a = false) l1)
    (h2 : List.Pairwise (fun a b => lessItems b a = false) l2)
    (hp : l1.Perm l2) : l1.map sortKey = l2.map sortKey := by
  have key : ∀ a b : ListItem, lessItems b a = false → lessItems a b = false →
      sortKey a = sortKey b := by
    intro a b hab hba
    rcases lessItems_total a b with h | h | h
    · rw [h] at hba; exact absurd hba (by decide)
    · rw [h] at hab; exact absurd hab (by decide)
    · exact h
  have hk : ∀ {l : listItemSort}, List.Pairwise (fun a b => lessItems b a = false) l →
      List.Pairwise (fun k1 k2 : ListStatus × GoString =>
        k2.1 ≤ k1.1 ∧ (k1.1 = k2.1 → k1.2 ≤ k2.2)) (l.map sortKey) := by
    intro l hl
    rw [List.pairwise_map]
    exact hl.imp (fun {a b} h => (notLess_iff a b).1 h)
  refine List.Perm.eq_of_sorted (fun k1 k2 _ _ h12 h21 => ?_) (hk h1) (hk h2) (hp.map sortKey)
  have e1 : k1.1 = k2.1 := le_antisymm h21.1 h12.1
  exact Prod.ext e1 (le_antisymm (h12.2 e1) (h21.2 e1.symm))

theorem map_eq_self {f : ListItem → ListItem} :
    ∀ {l : listItemSort}, l.map f = l → ∀ x ∈ l, f x = x
  | [], _, x, hx => by cases hx
  | a :: l, h, x, hx => by
    simp only [List.map_cons, List.cons.injEq] at h
    rcases List.mem_cons.1 hx with rfl | hx
    · exact h.1
    · exact map_eq_self h.2 x hx

theorem exchangeLocal_keys (x : ListItem) :
    (exchangeLocal x).Status = x.Status ∧ (exchangeLocal x).Path = x.Path := by
  unfold exchangeLocal
  split
  · exact ⟨rfl, rfl⟩
  · split
    · exact ⟨rfl, rfl⟩
    · exact ⟨rfl, rfl⟩

theorem listStatus_twins_differ (sort : listItemSort → listItemSort) (hs : SortContract sort)
    (ld : Loader) :
    (Context.ListStatus sort ld ⟨true, twins⟩).list ≠
      (Context.ListStatus sort ld ⟨true, twinsSwapped⟩).list := by
  intro h
  have e1 : (Context.ListStatus sort ld ⟨true, twins⟩).list = sort (collect twins) := rfl
  have e2 : (Context.ListStatus sort ld ⟨true, twinsSwapped⟩).list =
      sort ((collect twins).map exchangeLocal) := rfl
  rw [e1, e2, hs.oblivious exchangeLocal exchangeLocal_keys] at h
  have hmem : itemOf ⟨StatusVendor, "a/pkg", "vendor/a/pkg"⟩ ∈ sort (collect twins) :=
    (swapReach_perm (hs.swaps (collect twins))).mem_iff.2 (by decide)
  have := map_eq_self h.symm _ hmem
  exact absurd this (by decide)

/-- Counterexample to C3: the two packages of `twins` share status and canonical path and
differ in local path. Enumerated in one order and in the other, they make `ListStatus`
return different sequences, whatever routine meeting `SortContract` does the sorting. -/
theorem listStatus_depends_on_enumeration_order :
    twins.Perm twinsSwapped ∧
    (Context.ListStatus stableSort (loaderOk []) ⟨true, twins⟩).list ≠
      (Context.ListStatus stableSort (loaderOk []) ⟨true, twinsSwapped⟩).list ∧
    ∀ sort : listItemSort → listItemSort, SortContract sort → ∀ ld : Loader,
      (Context.ListStatus sort ld ⟨true, twins⟩).list ≠
        (Context.ListStatus sort ld ⟨true, twinsSwapped⟩).list :=
  ⟨List.Perm.swap _ _ _, by decide, fun sort hs ld => listStatus_twins_differ sort hs ld⟩

/-- C3, amended. For two enumeration orders of one package set on which `ListStatus`
succeeds, the two results carry the same `Status` and `Path` at every position; and when
packages that share status and canonical path also share their local path (in particular
when no two packages share both), the two results are the same sequence. -/
theorem listStatus_order_independent_keys (sort : listItemSort → listItemSort)
    (hs : SortContract sort) (ld1 ld2 : Loader) (ctx1 ctx2 : Context)
    (hok1 : (ctx1.ListStatus sort ld1).err = none)
    (hok2 : (ctx2.ListStatus sort ld2).err = none)
    (hperm : (ctx1.ListStatus sort ld1).ctx.Package.Perm (ctx2.ListStatus sort ld2).ctx.Package) :
    ((ctx1.ListStatus sort ld1).list.map (fun r => (r.Status, r.Path)) =
      (ctx2.ListStatus sort ld2).list.map (fun r => (r.Status, r.Path))) ∧
    ((∀ p ∈ (ctx1.ListStatus sort ld1).ctx.Package,
        ∀ q ∈ (ctx1.ListStatus sort ld1).ctx.Package,
        p.Status = q.Status → p.CanonicalPath = q.CanonicalPath → p.LocalPath = q.LocalPath) →
      (ctx1.ListStatus sort ld1).list = (ctx2.ListStatus sort ld2).list) := by
  have hp1 := listStatus_perm sort hs ld1 ctx1 hok1
  have hp2 := listStatus_perm sort hs ld2 ctx2 hok2
  have hpw1 := listStatus_pairwise sort hs ld1 ctx1 hok1
  have hpw2 := listStatus_pairwise sort hs ld2 ctx2 hok2
  have hp : (ctx1.ListStatus sort ld1).list.Perm (ctx2.ListStatus sort ld2).list :=
    (hp1.trans (hperm.map itemOf)).trans hp2.symm
  refine ⟨sameKeys_of_perm hpw1 hpw2 hp, fun hloc => sorted_perm_unique ?_ hpw1 hpw2 hp⟩
  intro a ha b hb hk
  obtain ⟨p, hp, rfl⟩ := List.mem_map.1 (hp1.mem_iff.1 ha)
  obtain ⟨q, hq, rfl⟩ := List.mem_map.1 (hp1.mem_iff.1 hb)
  simp only [sortKey, itemOf, Prod.mk.injEq] at hk
  have := hloc p hp q hq hk.1 hk.2
  simp only [itemOf, ListItem.mk.injEq]
  exact ⟨hk.1, hk.2, this⟩

/-- Witness of C3, amended: the scenario of the spec, enumerated in two orders. -/
theorem listStatus_order_independent_scenario :
    (Context.ListStatus stableSort (loaderOk scenario) ⟨false, []⟩).list =
      (Context.ListStatus stableSort (loaderOk []) ⟨true, scenario.reverse⟩).list :=
  (listStatus_order_independent_keys stableSort stableSort_contract (loaderOk scenario)
    (loaderOk []) ⟨false, []⟩ ⟨true, scenario.reverse⟩ (by decide) (by decide)
    (List.reverse_perm scenario).symm).2 (by decide)

theorem string_length_eq_zero (s : GoString) : s.length = 0 ↔ s = "" := by
  constructor
  · intro h
    have : s.data = [] := List.length_eq_zero.1 h
    exact String.ext this
  · rintro rfl
    rfl

/-- C4. `ListItem.String` follows the line format exactly: status string, a space and the
path when the vendor path is empty or equal to the path; otherwise the same followed by
a space and the vendor path in square brackets. The three lines of the spec come out as
written there. -/
theorem listItem_string_format :
    (∀ li : ListItem, ListItem.String li =
      if li.VendorPath = "" ∨ li.VendorPath = li.Path then
        ListStatus.String li.Status ++ " " ++ li.Path
      else
        ListStatus.String li.Status ++ " " ++ li.Path ++ " [" ++ li.VendorPath ++ "]") ∧
    ListItem.String ⟨StatusLocal, "example.com/app", ""⟩ = "l example.com/app" ∧
    ListItem.String ⟨StatusVendor, "example.com/lib", "vendor/example.com/lib"⟩ =
      "v example.com/lib [vendor/example.com/lib]" ∧
    ListItem.String ⟨StatusInternal, "example.com/app/internal/dep",
        "example.com/app/internal/dep"⟩ = "i example.com/app/internal/dep" := by
  refine ⟨fun li => ?_, by decide, by decide, by decide⟩
  unfold ListItem.String
  simp only [string_length_eq_zero]

/-- C5. Each of the nine declared statuses renders as a string of exactly one character,
and two different declared statuses render as different strings. -/
theorem listStatus_string_closed :
    declaredStatuses.length = 9 ∧ declaredStatuses.Nodup ∧
    (declaredStatuses.map ListStatus.String).Nodup ∧
    (∀ s ∈ declaredStatuses, (ListStatus.String s).length = 1) ∧
    (∀ s ∈ declaredStatuses, ∀ t ∈ declaredStatuses,
      s ≠ t → ListStatus.String s ≠ ListStatus.String t) := by
  refine ⟨by decide, by decide, by decide, by decide, by decide⟩

/-- Witness of C5: `StatusVendor` renders as one character, which is not that of
`StatusUnknown`. -/
theorem listStatus_string_closed_vendor :
    StatusVendor ∈ declaredStatuses ∧ StatusUnknown ∈ declaredStatuses ∧
    StatusVendor ≠ StatusUnknown ∧ (ListStatus.String StatusVendor).length = 1 ∧
    ListStatus.String StatusVendor ≠ ListStatus.String StatusUnknown :=
  ⟨by decide, by decide, by decide,
   listStatus_string_closed.2.2.2.1 StatusVendor (by decide),
   listStatus_string_closed.2.2.2.2 StatusVendor (by decide) StatusUnknown (by decide)
     (by decide)⟩

/-- C6. When the flag is false and the loader returns the error `e`, `ListStatus` returns
no records and exactly `e`. -/
theorem listStatus_error_propagates (sort : listItemSort → listItemSort) (ld : Loader)
    (ctx : Context) (e : GoError) (hl : ctx.loaded = false) (he : (ld ctx).2 = some e) :
    (ctx.ListStatus sort ld).list = [] ∧ (ctx.ListStatus sort ld).err = some e := by
  unfold Context.ListStatus
  rcases h : ld ctx with ⟨c1, _ | e1⟩
  · rw [h] at he; cases he
  · rw [h] at he
    simp only [Option.some.injEq] at he
    simp [hl, he]

/-- Witness of C6: a loader that fails with the error "no project". -/
theorem listStatus_error_propagates_double :
    (Context.ListStatus stableSort (loaderFail ⟨"no project"⟩) ⟨false, scenario⟩).list = [] ∧
    (Context.ListStatus stableSort (loaderFail ⟨"no project"⟩) ⟨false, scenario⟩).err =
      some ⟨"no project"⟩ :=
  listStatus_error_propagates stableSort (loaderFail ⟨"no project"⟩) ⟨false, scenario⟩
    ⟨"no project"⟩ rfl rfl

/-- C7. A call of `ListStatus` on a context whose flag is already true does not invoke the
loader and leaves the context as it was. With a loader that, as the spec requires of
it, leaves the flag true when it succeeds: a first call on an unloaded context invokes
the loader once, and a second call on the context it leaves invokes it not at all, so
the loader has been called once in total. -/
theorem listStatus_loads_once (sort : listItemSort → listItemSort) (ld : Loader)
    (ctx : Context) :
    (ctx.loaded = true →
      (ctx.ListStatus sort ld).loads = 0 ∧ (ctx.ListStatus sort ld).ctx = ctx) ∧
    (LoaderSetsFlag ld → ctx.loaded = false → (ld ctx).2 = none →
      (ctx.ListStatus sort ld).err = none ∧
      (ctx.ListStatus sort ld).loads = 1 ∧
      ((ctx.ListStatus sort ld).ctx.ListStatus sort ld).loads = 0 ∧
      (ctx.ListStatus sort ld).loads +
        ((ctx.ListStatus sort ld).ctx.ListStatus sort ld).loads = 1 ∧
      ((ctx.ListStatus sort ld).ctx.ListStatus sort ld).list = (ctx.ListStatus sort ld).list) := by
  constructor
  · intro hl
    simp [Context.ListStatus, hl]
  · intro hflag hl hok
    have h1 : ctx.ListStatus sort ld =
        { ctx := (ld ctx).1, list := sort (collect (ld ctx).1.Package), err := none,
          loads := 1 } := by
      unfold Context.ListStatus
      rcases h : ld ctx with ⟨c1, _ | e1⟩
      · simp [hl]
      · rw [h] at hok; cases hok
    have h2 : (ld ctx).1.loaded = true := hflag ctx hok
    rw [h1]
    simp [Context.ListStatus, h2]

/-- Witness of C7: a loader double that installs the scenario and sets the flag. -/
theorem listStatus_loads_once_double :
    (Context.ListStatus stableSort (loaderOk scenario) ⟨false, []⟩).loads = 1 ∧
    ((Context.ListStatus stableSort (loaderOk scenario) ⟨false, []⟩).ctx.ListStatus
      stableSort (loaderOk scenario)).loads = 0 ∧
    (Context.ListStatus stableSort (loaderOk scenario) ⟨true, scenario⟩).loads = 0 :=
  ⟨((listStatus_loads_once stableSort (loaderOk scenario) ⟨false, []⟩).2
      (fun _ _ => rfl) rfl rfl).2.1,
   ((listStatus_loads_once stableSort (loaderOk scenario) ⟨false, []⟩).2
      (fun _ _ => rfl) rfl rfl).2.2.1,
   ((listStatus_loads_once stableSort (loaderOk scenario) ⟨true, scenario⟩).1 rfl).1⟩

theorem listStatus_before_of_status_lt (sort : listItemSort → listItemSort)
    (hs : SortContract sort) (ld : Loader) (ctx : Context)
    (hok : (ctx.ListStatus sort ld).err = none)
    (i j : Fin (ctx.ListStatus sort ld).list.length)
    (hlt : ((ctx.ListStatus sort ld).list.get j).Status <
      ((ctx.ListStatus sort ld).list.get i).Status) : i < j := by
  have hpw := listStatus_pairwise sort hs ld ctx hok
  by_contra hij
  rcases lt_or_eq_of_le (not_lt.1 hij) with h | h
  · have := (notLess_iff _ _).1 (List.pairwise_iff_get.1 hpw j i h)
    exact absurd hlt (not_lt.2 this.1)
  · rw [h] at hlt
    exact lt_irrefl _ hlt

/-- C8. The ranks are declared in the increasing order Unknown, Missing, Std, Local,
External, Internal, Unused, Program, Vendor, and the report lists the statuses in the
order Vendor, Program, Unused, Internal, External, Local, Std, Missing, Unknown: whenever
`ListStatus` succeeds, a record whose status comes earlier in that display order stands
before every record whose status comes later in it; so a record of status Unknown stands
after every record of any other declared status. -/
theorem listStatus_display_order (sort : listItemSort → listItemSort)
    (hs : SortContract sort) (ld : Loader) (ctx : Context)
    (hok : (ctx.ListStatus sort ld).err = none) :
    (StatusUnknown < StatusMissing ∧ StatusMissing < StatusStd ∧ StatusStd < StatusLocal ∧
      StatusLocal < StatusExternal ∧ StatusExternal < StatusInternal ∧
      StatusInternal < StatusUnused ∧ StatusUnused < StatusProgram ∧
      StatusProgram < StatusVendor) ∧
    (∀ (a b : Fin displayOrder.length) (i j : Fin (ctx.ListStatus sort ld).list.length),
      a < b →
      ((ctx.ListStatus sort ld).list.get i).Status = displayOrder.get a →
      ((ctx.ListStatus sort ld).list.get j).Status = displayOrder.get b →
      i < j) ∧
    (∀ i j : Fin (ctx.ListStatus sort ld).list.length,
      ((ctx.ListStatus sort ld).list.get i).Status = StatusUnknown →
      ((ctx.ListStatus sort ld).list.get j).Status ∈ declaredStatuses →
      ((ctx.ListStatus sort ld).list.get j).Status ≠ StatusUnknown →
      j < i) := by
  refine ⟨by decide, fun a b i j hab hi hj => ?_, fun i j hi hj hne => ?_⟩
  · apply listStatus_before_of_status_lt sort hs ld ctx hok
    rw [hi, hj]
    have hdec : ∀ a b : Fin displayOrder.length, a < b →
        displayOrder.get b < displayOrder.get a := by decide
    exact hdec a b hab
  · apply listStatus_before_of_status_lt sort hs ld ctx hok
    rw [hi]
    have hdec : ∀ s ∈ declaredStatuses, s ≠ StatusUnknown → StatusUnknown < s := by decide
    exact hdec _ hj hne

/-- Witness of C8: in the report of `withUnknown` the Vendor record, at position 0, stands
before the Unknown record, at position 2. -/
theorem listStatus_display_order_unknown_last :
    (Context.ListStatus stableSort (loaderOk withUnknown) ⟨false, []⟩).list =
      [⟨StatusVendor, "a/pkg", ""⟩, ⟨StatusMissing, "z/pkg", ""⟩,
       ⟨StatusUnknown, "q/pkg", ""⟩] ∧
    (⟨0, by decide⟩ :
      Fin (Context.ListStatus stableSort (loaderOk withUnknown) ⟨false, []⟩).list.length) <
      ⟨2, by decide⟩ :=
  ⟨by decide,
   (listStatus_display_order stableSort stableSort_contract (loaderOk withUnknown)
      ⟨false, []⟩ (by decide)).2.2 ⟨2, by decide⟩ ⟨0, by decide⟩ (by decide) (by decide)
      (by decide)⟩

/-- C9. The status bytes outside the nine declared ones are the values from 9 to 255. Each
of them renders as the empty string, and a record carrying it still renders as a line: a
space and the path, followed by the bracketed vendor path when that is neither empty nor
the path. -/
theorem listStatus_string_undeclared (s : ListStatus) :
    (s ∉ declaredStatuses ↔ 9 ≤ s.val ∧ s.val ≤ 255) ∧
    (s ∉ declaredStatuses →
      ListStatus.String s = "" ∧
      ∀ p v : GoString, ListItem.String ⟨s, p, v⟩ =
        if v = "" ∨ v = p then " " ++ p else " " ++ p ++ " [" ++ v ++ "]") := by
  have h9 : ∀ t : ListStatus, (t ∉ declaredStatuses ↔ 9 ≤ t.val) ∧
      (t ∉ declaredStatuses → ListStatus.String t = "") := by
    decide
  refine ⟨?_, fun hs => ⟨(h9 s).2 hs, fun p v => ?_⟩⟩
  · rw [(h9 s).1]
    exact ⟨fun h => ⟨h, by omega⟩, fun h => h.1⟩
  · unfold ListItem.String
    simp only [string_length_eq_zero, (h9 s).2 hs]
    split <;> rfl

/-- Witness of C9: the status byte 200. -/
theorem listStatus_string_undeclared_200 :
    (200 : ListStatus) ∉ declaredStatuses ∧ ListStatus.String 200 = "" ∧
    ListItem.String ⟨200, "a/pkg", "vendor/a/pkg"⟩ = " a/pkg [vendor/a/pkg]" :=
  ⟨by decide, ((listStatus_string_undeclared 200).2 (by decide)).1,
   ((listStatus_string_undeclared 200).2 (by decide)).2 "a/pkg" "vendor/a/pkg"⟩

theorem lessItems_eq_of_key_left {a b : ListItem} (h : sortKey a = sortKey b) (c : ListItem) :
    lessItems a c = lessItems b c := by
  simp only [sortKey, Prod.mk.injEq] at h
  exact lessItems_congr h.1 h.2 rfl rfl

theorem lessItems_eq_of_key_right {a b : ListItem} (h : sortKey a = sortKey b) (c : ListItem) :
    lessItems c a = lessItems c b := by
  simp only [sortKey, Prod.mk.injEq] at h
  exact lessItems_congr rfl rfl h.1 h.2

/-- A sorted slice is made of the records before a key, those of the key, and those after. -/
theorem sorted_split (x : ListItem) :
    ∀ l : listItemSort, List.Pairwise (fun a b => lessItems b a = false) l →
      l = l.filter (fun r => lessItems r x) ++
          l.filter (fun r => decide (sortKey r = sortKey x)) ++
          l.filter (fun r => lessItems x r)
  | [], _ => rfl
  | a :: t, hpw => by
    rw [List.pairwise_cons] at hpw
    have ih := sorted_split x t hpw.2
    rcases lessItems_total a x with h | h | h
    · have h2 : lessItems x a = false := lessItems_asymm h
      have h3 : ¬ sortKey a = sortKey x := by
        intro e
        rw [lessItems_eq_of_key_left e, lessItems_irrefl] at h
        exact Bool.false_ne_true h
      simp only [List.filter_cons, h, h2, h3, decide_False, if_true, List.cons_append]
      simp only [Bool.false_eq_true, if_false]
      rw [← ih]
    · have h2 : lessItems a x = false := lessItems_asymm h
      have h3 : ¬ sortKey a = sortKey x := by
        intro e
        rw [lessItems_eq_of_key_right e, lessItems_irrefl] at h
        exact Bool.false_ne_true h
      have hA : t.filter (fun r => lessItems r x) = [] := by
        rw [List.filter_eq_nil_iff]
        intro y hy hyx
        have := lessItems_trans hyx h
        rw [hpw.1 y hy] at this
        exact Bool.false_ne_true this
      have hB : t.filter (fun r => decide (sortKey r = sortKey x)) = [] := by
        rw [List.filter_eq_nil_iff]
        intro y hy hyx
        have e : sortKey y = sortKey x := of_decide_eq_true hyx
        have := hpw.1 y hy
        rw [lessItems_eq_of_key_left e, h] at this
        exact Bool.false_ne_true this.symm
      rw [hA, hB, List.nil_append, List.nil_append] at ih
      simp only [List.filter_cons, h, h2, h3, decide_False, if_true, hA, hB, List.nil_append]
      simp only [Bool.false_eq_true, if_false, List.nil_append]
      exact congrArg (List.cons a) ih
    · have h1 : lessItems a x = false := by
        rw [lessItems_eq_of_key_left h, lessItems_irrefl]
      have h2 : lessItems x a = false := by
        rw [lessItems_eq_of_key_right h, lessItems_irrefl]
      have hA : t.filter (fun r => lessItems r x) = [] := by
        rw [List.filter_eq_nil_iff]
        intro y hy hyx
        rw [← lessItems_eq_of_key_right h, hpw.1 y hy] at hyx
        exact Bool.false_ne_true hyx
      rw [hA, List.nil_append] at ih
      simp only [List.filter_cons, h, h1, h2, decide_True, if_true, hA, List.nil_append,
        List.cons_append]
      simp only [Bool.false_eq_true, if_false, List.nil_append]
      exact congrArg (List.cons a) ih

/-- Counterexample to C10: the thirteen packages of `thirteen` are enumerated with the two
`twins` first, local path `vendor/a/pkg` before local path `internal/a/pkg`. `sort.Sort`
picks index 6 as pivot and swaps it to the front, which carries the first twin behind
the second; the insertion sort of the left part then leaves the two in that order. The
report lists `internal/a/pkg` before `vendor/a/pkg`. -/
theorem listStatus_sort_not_stable :
    goSort (collect thirteen) =
      some (Context.ListStatus goSortEmbedded (loaderOk []) ⟨true, thirteen⟩).list ∧
    (Context.ListStatus goSortEmbedded (loaderOk []) ⟨true, thirteen⟩).list =
      [⟨StatusVendor, "a/app", ""⟩, ⟨StatusVendor, "a/pkg", "internal/a/pkg"⟩,
       ⟨StatusVendor, "a/pkg", "vendor/a/pkg"⟩, ⟨StatusVendor, "b/pkg", ""⟩,
       ⟨StatusVendor, "c/pkg", ""⟩, ⟨StatusProgram, "d/cmd", ""⟩, ⟨StatusUnused, "e/pkg", ""⟩,
       ⟨StatusInternal, "f/pkg", ""⟩, ⟨StatusExternal, "g/pkg", ""⟩,
       ⟨StatusExternal, "h/pkg", ""⟩, ⟨StatusLocal, "i/pkg", ""⟩, ⟨StatusStd, "fmt", ""⟩,
       ⟨StatusMissing, "z/pkg", ""⟩] ∧
    (thirteen.map itemOf).filter (fun r => decide (sortKey r = (StatusVendor, "a/pkg"))) =
      [⟨StatusVendor, "a/pkg", "vendor/a/pkg"⟩, ⟨StatusVendor, "a/pkg", "internal/a/pkg"⟩] ∧
    (Context.ListStatus goSortEmbedded (loaderOk []) ⟨true, thirteen⟩).list.filter
        (fun r => decide (sortKey r = (StatusVendor, "a/pkg"))) =
      [⟨StatusVendor, "a/pkg", "internal/a/pkg"⟩, ⟨StatusVendor, "a/pkg", "vendor/a/pkg"⟩] := by
  refine ⟨by decide, by decide, by decide, by decide⟩

/-- C10, amended. `sort.Sort` promises no stability. Whenever `ListStatus` succeeds, the
records with a given status and canonical path are all kept (they are a permutation of
the records of that key in enumeration order) and stand next to one another in the
result; their order among themselves is left to the sort routine. -/
theorem listStatus_equal_keys_adjacent (sort : listItemSort → listItemSort)
    (hs : SortContract sort) (ld : Loader) (ctx : Context)
    (hok : (ctx.ListStatus sort ld).err = none) (s : ListStatus) (p : GoString) :
    ((ctx.ListStatus sort ld).list.filter (fun r => decide (sortKey r = (s, p)))).Perm
      (((ctx.ListStatus sort ld).ctx.Package.map
        (fun q => (⟨q.Status, q.CanonicalPath, q.LocalPath⟩ : ListItem))).filter
          (fun r => decide (sortKey r = (s, p)))) ∧
    ∃ before after : List ListItem,
      (ctx.ListStatus sort ld).list =
        before ++ (ctx.ListStatus sort ld).list.filter (fun r => decide (sortKey r = (s, p)))
          ++ after ∧
      (∀ r ∈ before, sortKey r ≠ (s, p)) ∧ (∀ r ∈ after, sortKey r ≠ (s, p)) := by
  have hp := listStatus_perm sort hs ld ctx hok
  have hpw := listStatus_pairwise sort hs ld ctx hok
  refine ⟨hp.filter _, _, _, sorted_split ⟨s, p, ""⟩ _ hpw, ?_, ?_⟩
  · intro r hr e
    have hr2 := (List.mem_filter.1 hr).2
    have e2 : sortKey r = sortKey ⟨s, p, ""⟩ := e
    rw [lessItems_eq_of_key_left e2, lessItems_irrefl] at hr2
    exact Bool.false_ne_true hr2
  · intro r hr e
    have hr2 := (List.mem_filter.1 hr).2
    have e2 : sortKey r = sortKey ⟨s, p, ""⟩ := e
    rw [lessItems_eq_of_key_right e2, lessItems_irrefl] at hr2
    exact Bool.false_ne_true hr2

/-- Witness of C10, amended: both records of `twins` are in the report. -/
theorem listStatus_equal_keys_adjacent_twins :
    ((Context.ListStatus stableSort (loaderOk twins) ⟨false, []⟩).list.filter
      (fun r => decide (sortKey r = (StatusVendor, "a/pkg")))).Perm
      [⟨StatusVendor, "a/pkg", "vendor/a/pkg"⟩, ⟨StatusVendor, "a/pkg", "internal/a/pkg"⟩] :=
  (listStatus_equal_keys_adjacent stableSort stableSort_contract (loaderOk twins) ⟨false, []⟩
    (by decide) StatusVendor "a/pkg").1

/-! ## Errors, the empty report, the comparator, uniqueness -/

theorem listStatus_of_loaded (sort : listItemSort → listItemSort) (ld : Loader)
    (ctx : Context) (hl : ctx.loaded = true) :
    ctx.ListStatus sort ld =
      { ctx := ctx, list := sort (collect ctx.Package), err := none, loads := 0 } := by
  simp [Context.ListStatus, hl]

theorem listStatus_of_load_ok (sort : listItemSort → listItemSort) (ld : Loader)
    (ctx : Context) (hl : ctx.loaded = false) (hok : (ld ctx).2 = none) :
    ctx.ListStatus sort ld =
      { ctx := (ld ctx).1, list := sort (collect (ld ctx).1.Package), err := none,
        loads := 1 } := by
  unfold Context.ListStatus
  rcases h : ld ctx with ⟨c1, _ | e1⟩
  · simp [hl]
  · rw [h] at hok; cases hok

/-- C11. `ListStatus` returns a non-nil error exactly when the flag is false and the
loader returns a non-nil error. On a context whose flag is true, and on one whose flag
is false and whose loader call returns nil, it returns the nil error together with the
sorted list of the records of the analyzed packages. -/
theorem listStatus_fails_only_with_loader (sort : listItemSort → listItemSort)
    (hs : SortContract sort) (ld : Loader) (ctx : Context) :
    ((ctx.ListStatus sort ld).err ≠ none ↔ (ctx.loaded = false ∧ (ld ctx).2 ≠ none)) ∧
    (ctx.loaded = true →
      (ctx.ListStatus sort ld).err = none ∧
      (ctx.ListStatus sort ld).list = sort (collect ctx.Package) ∧
      IsSorted (ctx.ListStatus sort ld).list ∧
      (ctx.ListStatus sort ld).list.Perm (ctx.Package.map itemOf)) ∧
    (ctx.loaded = false → (ld ctx).2 = none →
      (ctx.ListStatus sort ld).err = none ∧
      (ctx.ListStatus sort ld).list = sort (collect (ld ctx).1.Package) ∧
      IsSorted (ctx.ListStatus sort ld).list ∧
      (ctx.ListStatus sort ld).list.Perm ((ld ctx).1.Package.map itemOf)) := by
  refine ⟨?_, fun hl => ?_, fun hl hok => ?_⟩
  · rw [Ne, listStatus_err_none_iff]
    cases ctx.loaded <;> simp
  · rw [listStatus_of_loaded sort ld ctx hl]
    refine ⟨rfl, rfl, hs.sorted _, ?_⟩
    rw [← collect_eq_map]
    exact swapReach_perm (hs.swaps _)
  · rw [listStatus_of_load_ok sort ld ctx hl hok]
    refine ⟨rfl, rfl, hs.sorted _, ?_⟩
    rw [← collect_eq_map]
    exact swapReach_perm (hs.swaps _)

/-- Witness of C11: a loaded context, and a fresh one whose loader succeeds. -/
theorem listStatus_fails_only_with_loader_doubles :
    (Context.ListStatus stableSort (loaderFail ⟨"unused"⟩) ⟨true, scenario⟩).err = none ∧
    (Context.ListStatus stableSort (loaderOk scenario) freshContext).err = none ∧
    IsSorted (Context.ListStatus stableSort (loaderOk scenario) freshContext).list :=
  ⟨((listStatus_fails_only_with_loader stableSort stableSort_contract (loaderFail ⟨"unused"⟩)
      ⟨true, scenario⟩).2.1 rfl).1,
   ((listStatus_fails_only_with_loader stableSort stableSort_contract (loaderOk scenario)
      freshContext).2.2 rfl rfl).1,
   ((listStatus_fails_only_with_loader stableSort stableSort_contract (loaderOk scenario)
      freshContext).2.2 rfl rfl).2.2.1⟩

/-- C12. When the analysis is available (the flag is true, or the loader succeeds) and
the analyzed package collection is empty, `ListStatus` returns the empty sequence and
the nil error. -/
theorem listStatus_empty (sort : listItemSort → listItemSort)
    (hs : SortContract sort) (ld : Loader) (ctx : Context) :
    (ctx.loaded = true → ctx.Package = [] →
      (ctx.ListStatus sort ld).list = [] ∧ (ctx.ListStatus sort ld).list.length = 0 ∧
      (ctx.ListStatus sort ld).err = none) ∧
    (ctx.loaded = false → (ld ctx).2 = none → (ld ctx).1.Package = [] →
      (ctx.ListStatus sort ld).list = [] ∧ (ctx.ListStatus sort ld).list.length = 0 ∧
      (ctx.ListStatus sort ld).err = none) := by
  have hnil : sort (collect []) = [] :=
    List.Perm.eq_nil (swapReach_perm (hs.swaps (collect [])))
  constructor
  · intro hl he
    rw [listStatus_of_loaded sort ld ctx hl, he]
    simp [hnil]
  · intro hl hok he
    rw [listStatus_of_load_ok sort ld ctx hl hok, he]
    simp [hnil]

/-- Witness of C12: a loaded context without packages, and a loader that finds none. -/
theorem listStatus_empty_doubles :
    (Context.ListStatus stableSort (loaderOk []) ⟨true, []⟩).list = [] ∧
    (Context.ListStatus stableSort (loaderOk []) freshContext).list = [] ∧
    (Context.ListStatus stableSort (loaderOk []) freshContext).err = none :=
  ⟨((listStatus_empty stableSort stableSort_contract (loaderOk []) ⟨true, []⟩).1 rfl rfl).1,
   ((listStatus_empty stableSort stableSort_contract (loaderOk []) freshContext).2
      rfl rfl rfl).1,
   ((listStatus_empty stableSort stableSort_contract (loaderOk []) freshContext).2
      rfl rfl rfl).2.2⟩

/-- C13. `Less` is a strict total order on the key (`Status`, `Path`): no record is
`Less` than itself; `Less` is transitive; of `Less(i, j)`, `Less(j, i)` and "same status
and same path" exactly one holds; and replacing the vendor paths of the records by any
others leaves every answer of `Less` as it was. -/
theorem less_strict_total_order (li : listItemSort) (i j k : Fin li.length) :
    li.Less i i = false ∧
    (li.Less i j = true → li.Less j k = true → li.Less i k = true) ∧
    ((li.Less i j = true ∨ li.Less j i = true ∨
        ((li.get i).Status = (li.get j).Status ∧ (li.get i).Path = (li.get j).Path)) ∧
      ¬ (li.Less i j = true ∧ li.Less j i = true) ∧
      ¬ (li.Less i j = true ∧
        ((li.get i).Status = (li.get j).Status ∧ (li.get i).Path = (li.get j).Path)) ∧
      ¬ (li.Less j i = true ∧
        ((li.get i).Status = (li.get j).Status ∧ (li.get i).Path = (li.get j).Path))) ∧
    (∀ v : ListItem → GoString,
      listItemSort.Less (li.map (fun r => { r with VendorPath := v r }))
        ⟨i.val, by simp⟩ ⟨j.val, by simp⟩ = li.Less i j) := by
  simp only [less_eq_lessItems]
  refine ⟨lessItems_irrefl _, lessItems_trans, ⟨?_, ?_, ?_, ?_⟩, fun v => ?_⟩
  · have := lessItems_total (li.get i) (li.get j)
    simpa [sortKey] using this
  · rintro ⟨h1, h2⟩
    rw [lessItems_asymm h1] at h2
    exact Bool.false_ne_true h2
  · rintro ⟨h1, hs, hp⟩
    have e : sortKey (li.get i) = sortKey (li.get j) := Prod.ext hs hp
    rw [lessItems_eq_of_key_left e, lessItems_irrefl] at h1
    exact Bool.false_ne_true h1
  · rintro ⟨h1, hs, hp⟩
    have e : sortKey (li.get i) = sortKey (li.get j) := Prod.ext hs hp
    rw [lessItems_eq_of_key_right e, lessItems_irrefl] at h1
    exact Bool.false_ne_true h1
  · simp only [List.get_eq_getElem, List.getElem_map]
    exact lessItems_congr rfl rfl rfl rfl

/-- Witness of C13: in the sorted scenario the Vendor record `a/pkg` is `Less` than the
Vendor record `b/pkg`, that one is `Less` than the Local record, so the first is `Less`
than the Local record. -/
theorem less_strict_total_order_scenario :
    listItemSort.Less (stableSort (collect scenario)) ⟨0, by decide⟩ ⟨1, by decide⟩ = true ∧
    listItemSort.Less (stableSort (collect scenario)) ⟨1, by decide⟩ ⟨2, by decide⟩ = true ∧
    listItemSort.Less (stableSort (collect scenario)) ⟨0, by decide⟩ ⟨2, by decide⟩ = true :=
  ⟨by decide, by decide,
   (less_strict_total_order (stableSort (collect scenario)) ⟨0, by decide⟩ ⟨1, by decide⟩
      ⟨2, by decide⟩).2.1 (by decide) (by decide)⟩

theorem strict_of_notLess_of_ne {a b : ListItem} (h : lessItems b a = false)
    (hne : sortKey a ≠ sortKey b) : lessItems a b = true := by
  rcases lessItems_total a b with h1 | h1 | h1
  · exact h1
  · rw [h1] at h; exact absurd h (by decide)
  · exact absurd h1 hne

/-- C14. When no two analyzed packages share both status and canonical path, `ListStatus`
returns the same sequence for every enumeration order of the packages: the result is
strictly ordered (each record has a greater status than every later one, or the same
status and a smaller path), and it is the only arrangement of the records that is. -/
theorem listStatus_unique_under_distinct_keys (sort : listItemSort → listItemSort)
    (hs : SortContract sort) (ld1 ld2 : Loader) (ctx1 ctx2 : Context)
    (hok1 : (ctx1.ListStatus sort ld1).err = none)
    (hok2 : (ctx2.ListStatus sort ld2).err = none)
    (hperm : (ctx1.ListStatus sort ld1).ctx.Package.Perm (ctx2.ListStatus sort ld2).ctx.Package)
    (hdistinct : ((ctx1.ListStatus sort ld1).ctx.Package.map
      (fun p => (p.Status, p.CanonicalPath))).Nodup) :
    (ctx1.ListStatus sort ld1).list = (ctx2.ListStatus sort ld2).list ∧
    List.Pairwise (fun a b : ListItem =>
        b.Status < a.Status ∨ (a.Status = b.Status ∧ a.Path < b.Path))
      (ctx1.ListStatus sort ld1).list ∧
    (∀ l : List ListItem,
      l.Perm ((ctx1.ListStatus sort ld1).ctx.Package.map
        (fun p => (⟨p.Status, p.CanonicalPath, p.LocalPath⟩ : ListItem))) →
      List.Pairwise (fun a b : ListItem =>
        b.Status < a.Status ∨ (a.Status = b.Status ∧ a.Path < b.Path)) l →
      l = (ctx1.ListStatus sort ld1).list) := by
  have hp1 := listStatus_perm sort hs ld1 ctx1 hok1
  have hp2 := listStatus_perm sort hs ld2 ctx2 hok2
  have hpw1 := listStatus_pairwise sort hs ld1 ctx1 hok1
  have hpw2 := listStatus_pairwise sort hs ld2 ctx2 hok2
  have hp : (ctx1.ListStatus sort ld1).list.Perm (ctx2.ListStatus sort ld2).list :=
    (hp1.trans (hperm.map itemOf)).trans hp2.symm
  have hkeys : ((ctx1.ListStatus sort ld1).list.map sortKey).Nodup := by
    have e : (ctx1.ListStatus sort ld1).ctx.Package.map (fun p => (p.Status, p.CanonicalPath))
        = ((ctx1.ListStatus sort ld1).ctx.Package.map itemOf).map sortKey := by
      simp [List.map_map, Function.comp_def, sortKey, itemOf]
    rw [e] at hdistinct
    exact ((hp1.map sortKey).nodup_iff).2 hdistinct
  have hinj : ∀ a ∈ (ctx1.ListStatus sort ld1).list, ∀ b ∈ (ctx1.ListStatus sort ld1).list,
      sortKey a = sortKey b → a = b :=
    fun a ha b hb h => List.inj_on_of_nodup_map hkeys ha hb h
  refine ⟨sorted_perm_unique hinj hpw1 hpw2 hp, ?_, fun l hl hstrict => ?_⟩
  · have hne : List.Pairwise (fun a b => sortKey a ≠ sortKey b)
        (ctx1.ListStatus sort ld1).list := (List.pairwise_map).1 hkeys
    exact (hpw1.and hne).imp
      (fun {a b} h => (lessItems_iff a b).1 (strict_of_notLess_of_ne h.1 h.2))
  · have hl1 : l.Perm (ctx1.ListStatus sort ld1).list := hl.trans hp1.symm
    have hpwl : List.Pairwise (fun a b => lessItems b a = false) l :=
      hstrict.imp (fun {a b} h => lessItems_asymm ((lessItems_iff a b).2 h))
    refine sorted_perm_unique (fun a ha b hb h => ?_) hpwl hpw1 hl1
    exact hinj a (hl1.mem_iff.1 ha) b (hl1.mem_iff.1 hb) h

/-- Witness of C14: the scenario of the spec, enumerated in two orders. -/
theorem listStatus_unique_scenario :
    (Context.ListStatus stableSort (loaderOk scenario) freshContext).list =
      (Context.ListStatus stableSort (loaderOk scenario.reverse) freshContext).list :=
  (listStatus_unique_under_distinct_keys stableSort stableSort_contract (loaderOk scenario)
    (loaderOk scenario.reverse) freshContext freshContext (by decide) (by decide)
    (List.reverse_perm scenario).symm (by decide)).1

/-! ## Reading a rendered line back -/

/-- Two texts without space, each followed by nothing or by something that starts with a
space, agree piece by piece when they agree as a whole. -/
theorem split_at_space : ∀ (p1 p2 s1 s2 : List Char),
    ' ' ∉ p1 → ' ' ∉ p2 → (s1 = [] ∨ ∃ t, s1 = ' ' :: t) → (s2 = [] ∨ ∃ t, s2 = ' ' :: t) →
    p1 ++ s1 = p2 ++ s2 → p1 = p2 ∧ s1 = s2
  | [], [], _, _, _, _, _, _, h => ⟨rfl, by simpa using h⟩
  | [], d :: p2, s1, s2, _, h2, hs1, _, h => by
    exfalso
    rcases hs1 with rfl | ⟨t, rfl⟩
    · simp at h
    · simp only [List.nil_append, List.cons_append, List.cons.injEq] at h
      exact h2 (h.1 ▸ List.mem_cons_self _ _)
  | c :: p1, [], s1, s2, h1, _, _, hs2, h => by
    exfalso
    rcases hs2 with rfl | ⟨t, rfl⟩
    · simp at h
    · simp only [List.nil_append, List.cons_append, List.cons.injEq] at h
      exact h1 (h.1 ▸ List.mem_cons_self _ _)
  | c :: p1, d :: p2, s1, s2, h1, h2, hs1, hs2, h => by
    simp only [List.cons_append, List.cons.injEq] at h
    have ih := split_at_space p1 p2 s1 s2 (fun hm => h1 (List.mem_cons_of_mem _ hm))
      (fun hm => h2 (List.mem_cons_of_mem _ hm)) hs1 hs2 h.2
    exact ⟨by rw [h.1, ih.1], ih.2⟩

/-- The characters that `ListItem.String` writes after the path. -/
theorem listItem_string_data (li : ListItem) :
    (ListItem.String li).data =
      (ListStatus.String li.Status).data ++ ' ' :: (li.Path.data ++
        (if li.VendorPath.length = 0 ∨ li.VendorPath = li.Path then []
         else ' ' :: '[' :: (li.VendorPath.data ++ [']']))) := by
  unfold ListItem.String
  split
  · simp only [String.data_append, List.append_nil, List.append_assoc]
    rfl
  · simp only [String.data_append, List.append_assoc]
    rfl

theorem declared_string_one_char :
    ∀ s ∈ declaredStatuses, (ListStatus.String s).data.length = 1 := by
  decide

theorem declared_string_injective :
    ∀ s ∈ declaredStatuses, ∀ t ∈ declaredStatuses,
      ListStatus.String s = ListStatus.String t → s = t := by
  decide
/-- C15. For two records whose statuses are among the nine declared ones and whose paths
contain no space, equal rendered lines mean equal status, equal path and equal effective
vendor path. Without the condition on the paths this fails: the record with path `a [b]`
and no vendor path renders like the record with path `a` and vendor path `b`. -/
theorem listItem_string_determines_record (r1 r2 : ListItem)
    (hd1 : r1.Status ∈ declaredStatuses) (hd2 : r2.Status ∈ declaredStatuses)
    (hp1 : ' ' ∉ r1.Path.data) (hp2 : ' ' ∉ r2.Path.data)
    (h : ListItem.String r1 = ListItem.String r2) :
    (r1.Status = r2.Status ∧ r1.Path = r2.Path ∧
      effectiveVendorPath r1 = effectiveVendorPath r2) ∧
    (ListItem.String bracketInPath = ListItem.String bracketFromVendor ∧
      bracketInPath.Path ≠ bracketFromVendor.Path) := by
  refine ⟨?_, by decide, by decide⟩
  have e := congrArg String.data h
  rw [listItem_string_data, listItem_string_data] at e
  obtain ⟨c1, hc1⟩ := List.length_eq_one.1 (declared_string_one_char _ hd1)
  obtain ⟨c2, hc2⟩ := List.length_eq_one.1 (declared_string_one_char _ hd2)
  rw [hc1, hc2] at e
  simp only [List.singleton_append, List.cons.injEq, true_and] at e
  have hst : r1.Status = r2.Status := by
    apply declared_string_injective _ hd1 _ hd2
    apply String.ext
    rw [hc1, hc2, e.1]
  have hsplit := split_at_space _ _ _ _ hp1 hp2
    (by split
        · exact Or.inl rfl
        · exact Or.inr ⟨_, rfl⟩)
    (by split
        · exact Or.inl rfl
        · exact Or.inr ⟨_, rfl⟩) e.2
  have hpath : r1.Path = r2.Path := String.ext hsplit.1
  refine ⟨hst, hpath, ?_⟩
  have hsuf := hsplit.2
  unfold effectiveVendorPath
  by_cases k1 : r1.VendorPath.length = 0 ∨ r1.VendorPath = r1.Path <;>
    by_cases k2 : r2.VendorPath.length = 0 ∨ r2.VendorPath = r2.Path
  · simp only [k1, k2, if_true]
  · simp only [k1, k2, if_true, if_false] at hsuf
    cases hsuf
  · simp only [k1, k2, if_true, if_false] at hsuf
    cases hsuf
  · simp only [k1, k2, if_false, List.cons.injEq, true_and] at hsuf
    simp only [k1, k2, if_false]
    exact String.ext (List.append_cancel_right hsuf)

/-- Witness of C15: a record without vendor path and one whose vendor path repeats the
path render alike; they have the same status, path and effective vendor path. -/
theorem listItem_string_determines_record_repeat :
    ListItem.String ⟨StatusVendor, "a/pkg", ""⟩ =
      ListItem.String ⟨StatusVendor, "a/pkg", "a/pkg"⟩ ∧
    (⟨StatusVendor, "a/pkg", ""⟩ : ListItem) ≠ ⟨StatusVendor, "a/pkg", "a/pkg"⟩ ∧
    effectiveVendorPath ⟨StatusVendor, "a/pkg", ""⟩ =
      effectiveVendorPath ⟨StatusVendor, "a/pkg", "a/pkg"⟩ :=
  ⟨by decide, by decide,
   (listItem_string_determines_record ⟨StatusVendor, "a/pkg", ""⟩
      ⟨StatusVendor, "a/pkg", "a/pkg"⟩ (by decide) (by decide) (by decide) (by decide)
      (by decide)).1.2.2⟩

end Govendor
